import Mathlib

/-!
Verification of the sailing-club interval service (`src/sailing_club.py`).

`solve_sailing_club` merges overlapping bookings (after a stable sort by
start) and computes the minimum number of boats with a sweep line over
`(time, ±1)` events sorted by `(time, -delta)`.  The batch endpoint maps
`solve_sailing_club` over the submitted test cases.
-/

/-- Stable sort order used for bookings: ascending by start
(Python `sorted(bookings, key=lambda x: x[0])`). -/
def startle (a b : ℤ × ℤ) : Prop := a.1 ≤ b.1

instance : DecidableRel startle := fun a b => inferInstanceAs (Decidable (a.1 ≤ b.1))

instance : IsTotal (ℤ × ℤ) startle := ⟨fun a b => le_total a.1 b.1⟩

instance : IsTrans (ℤ × ℤ) startle := ⟨fun _ _ _ h1 h2 => le_trans h1 h2⟩

/-- Event order used for the sweep: ascending by `(time, -delta)`
(Python `events.sort(key=lambda x: (x[0], -x[1]))`). -/
def eventle (a b : ℤ × ℤ) : Prop := a.1 < b.1 ∨ (a.1 = b.1 ∧ b.2 ≤ a.2)

instance : DecidableRel eventle :=
  fun a b => inferInstanceAs (Decidable (a.1 < b.1 ∨ (a.1 = b.1 ∧ b.2 ≤ a.2)))

instance : IsTotal (ℤ × ℤ) eventle := by
  constructor
  intro a b
  unfold eventle
  omega

instance : IsTrans (ℤ × ℤ) eventle := by
  constructor
  intro a b c h1 h2
  unfold eventle at *
  omega

instance : IsAntisymm (ℤ × ℤ) eventle := by
  constructor
  intro a b h1 h2
  unfold eventle at *
  have h3 : a.1 = b.1 := by omega
  have h4 : a.2 = b.2 := by omega
  exact Prod.ext h3 h4

/-- The merge loop of `solve_sailing_club`: the running merged interval is
`(cs, ce)`; a booking whose start is `≤ ce` extends `ce` to the max of the
ends, otherwise `(cs, ce)` is emitted and the booking starts a new interval. -/
def mergeLoop : ℤ → ℤ → List (ℤ × ℤ) → List (ℤ × ℤ)
  | cs, ce, [] => [(cs, ce)]
  | cs, ce, q :: rest =>
    if q.1 ≤ ce then mergeLoop cs (max ce q.2) rest
    else (cs, ce) :: mergeLoop q.1 q.2 rest

/-- Part 1 of `solve_sailing_club`: sort the bookings by start (stably) and
run the merge loop seeded with the first sorted booking. -/
def mergedSlots (bookings : List (ℤ × ℤ)) : List (ℤ × ℤ) :=
  match List.insertionSort startle bookings with
  | [] => []
  | b :: rest => mergeLoop b.1 b.2 rest

/-- The event list of the sweep: for each booking, a `+1` event at its start
and a `-1` event at its end, in input order. -/
def events : List (ℤ × ℤ) → List (ℤ × ℤ)
  | [] => []
  | p :: rest => (p.1, 1) :: (p.2, -1) :: events rest

/-- The sweep loop of `solve_sailing_club`: add each event's delta to the
running counter and keep the running maximum (starting from 0). -/
def sweepLoop : ℤ → ℤ → List (ℤ × ℤ) → ℤ
  | peak, _, [] => peak
  | peak, cur, e :: rest => sweepLoop (max peak (cur + e.2)) (cur + e.2) rest

/-- Part 2 of `solve_sailing_club`: sort the events by `(time, -delta)` and
sweep. -/
def minBoatsOf (bookings : List (ℤ × ℤ)) : ℤ :=
  sweepLoop 0 0 (List.insertionSort eventle (events bookings))

/-- `solve_sailing_club` from `src/sailing_club.py`: returns the merged
slots and the minimum number of boats needed; `([], 0)` on empty input. -/
def solve_sailing_club (bookings : List (ℤ × ℤ)) : List (ℤ × ℤ) × ℤ :=
  if bookings = [] then ([], 0)
  else (mergedSlots bookings, minBoatsOf bookings)

/-- A test case of the batch endpoint (pydantic `TestCase`). -/
structure TestCase where
  id : String
  input : List (ℤ × ℤ)
deriving DecidableEq

/-- A solution record of the batch endpoint (pydantic `Solution`). -/
structure Solution where
  id : String
  sortedMergedSlots : List (ℤ × ℤ)
  minBoatsNeeded : ℤ
deriving DecidableEq

/-- The handler `submit_sailing_solutions`: one solution per test case, in
order, built from `solve_sailing_club` (`solve_sailing_club` is total, so
the `except` branch of the handler is never taken). -/
def submit_sailing_solutions (testCases : List TestCase) : List Solution :=
  testCases.map fun tc =>
    { id := tc.id
      sortedMergedSlots := (solve_sailing_club tc.input).1
      minBoatsNeeded := (solve_sailing_club tc.input).2 }

/-- Every pair of the list is a well-formed interval (`start ≤ end`). -/
def wellFormed (bookings : List (ℤ × ℤ)) : Prop := ∀ p ∈ bookings, p.1 ≤ p.2

instance (bookings : List (ℤ × ℤ)) : Decidable (wellFormed bookings) :=
  inferInstanceAs (Decidable (∀ p ∈ bookings, p.1 ≤ p.2))

/-- Number of input intervals covering the instant `t` (closed endpoints). -/
def coverCount (bookings : List (ℤ × ℤ)) (t : ℤ) : ℤ :=
  ((bookings.filter fun p => decide (p.1 ≤ t ∧ t ≤ p.2)).length : ℤ)

/-- Sum of the deltas of a list of events. -/
def sumD (l : List (ℤ × ℤ)) : ℤ := (l.map Prod.snd).sum

/-- Running maximum of the second components, seeded with `init`. -/
def maxEnd (init : ℤ) (l : List (ℤ × ℤ)) : ℤ := l.foldl (fun m p => max m p.2) init

theorem sweepLoop_peak_le (l : List (ℤ × ℤ)) : ∀ peak cur : ℤ, peak ≤ sweepLoop peak cur l := by
  induction l with
  | nil => intro peak cur; exact le_refl _
  | cons e rest ih =>
    intro peak cur
    exact le_trans (le_max_left _ _) (ih (max peak (cur + e.2)) (cur + e.2))

theorem mergeLoop_start_ge (l : List (ℤ × ℤ)) :
    ∀ cs ce : ℤ, List.Sorted startle l → (∀ p ∈ l, cs ≤ p.1) →
      ∀ q ∈ mergeLoop cs ce l, cs ≤ q.1 := by
  induction l with
  | nil =>
    intro cs ce _ _ q hq
    simp only [mergeLoop, List.mem_singleton] at hq
    subst hq; exact le_refl _
  | cons x r ih =>
    intro cs ce hs hp q hq
    simp only [mergeLoop] at hq
    split at hq
    · exact ih cs (max ce x.2) hs.of_cons (fun p hpr => hp p (List.mem_cons_of_mem _ hpr)) q hq
    · rcases List.mem_cons.mp hq with h | h
      · subst h; exact le_refl _
      · have hx : cs ≤ x.1 := hp x (List.mem_cons_self _ _)
        have := ih x.1 x.2 hs.of_cons (fun p hpr => List.rel_of_sorted_cons hs p hpr) q h
        exact le_trans hx this

theorem mergeLoop_chain_strict (l : List (ℤ × ℤ)) :
    ∀ cs ce : ℤ, List.Sorted startle l → (∀ p ∈ l, p.1 ≤ p.2) → cs ≤ ce →
      List.Chain' (fun a b => a.1 < b.1 ∧ a.2 < b.1) (mergeLoop cs ce l) := by
  induction l with
  | nil => intro cs ce _ _ _; simp [mergeLoop]
  | cons x r ih =>
    intro cs ce hs hwf hcs
    simp only [mergeLoop]
    split
    · exact ih cs (max ce x.2) hs.of_cons
        (fun p hpr => hwf p (List.mem_cons_of_mem _ hpr))
        (le_trans hcs (le_max_left _ _))
    · rename_i hxle
      refine List.chain'_cons'.mpr ⟨?_, ?_⟩
      · intro y hy
        have hyl : y ∈ mergeLoop x.1 x.2 r := List.mem_of_mem_head? hy
        have h1 : x.1 ≤ y.1 :=
          mergeLoop_start_ge r x.1 x.2 hs.of_cons
            (fun p hpr => List.rel_of_sorted_cons hs p hpr) y hyl
        have h2 : ce < x.1 := lt_of_not_le hxle
        exact ⟨lt_of_le_of_lt hcs (lt_of_lt_of_le h2 h1), lt_of_lt_of_le h2 h1⟩
      · exact ih x.1 x.2 hs.of_cons
          (fun p hpr => hwf p (List.mem_cons_of_mem _ hpr))
          (hwf x (List.mem_cons_self _ _))

theorem mergeLoop_chain_gap (l : List (ℤ × ℤ)) :
    ∀ cs ce : ℤ, List.Sorted startle l →
      List.Chain' (fun a b => a.2 < b.1) (mergeLoop cs ce l) := by
  induction l with
  | nil => intro cs ce _; simp [mergeLoop]
  | cons x r ih =>
    intro cs ce hs
    simp only [mergeLoop]
    split
    · exact ih cs (max ce x.2) hs.of_cons
    · rename_i hxle
      refine List.chain'_cons'.mpr ⟨?_, ih x.1 x.2 hs.of_cons⟩
      intro y hy
      have hyl : y ∈ mergeLoop x.1 x.2 r := List.mem_of_mem_head? hy
      have h1 : x.1 ≤ y.1 :=
        mergeLoop_start_ge r x.1 x.2 hs.of_cons
          (fun p hpr => List.rel_of_sorted_cons hs p hpr) y hyl
      exact lt_of_lt_of_le (lt_of_not_le hxle) h1

theorem mergeLoop_sorted_start (l : List (ℤ × ℤ)) :
    ∀ cs ce : ℤ, List.Sorted startle l → (∀ p ∈ l, cs ≤ p.1) →
      List.Sorted startle (mergeLoop cs ce l) := by
  induction l with
  | nil => intro cs ce _ _; simp [mergeLoop, List.sorted_singleton]
  | cons x r ih =>
    intro cs ce hs hp
    simp only [mergeLoop]
    split
    · exact ih cs (max ce x.2) hs.of_cons (fun p hpr => hp p (List.mem_cons_of_mem _ hpr))
    · refine List.sorted_cons.mpr ⟨?_, ?_⟩
      · intro b hb
        have h1 : x.1 ≤ b.1 :=
          mergeLoop_start_ge r x.1 x.2 hs.of_cons
            (fun p hpr => List.rel_of_sorted_cons hs p hpr) b hb
        exact le_trans (hp x (List.mem_cons_self _ _)) h1
      · exact ih x.1 x.2 hs.of_cons (fun p hpr => List.rel_of_sorted_cons hs p hpr)

theorem mergeLoop_gap_id (l : List (ℤ × ℤ)) :
    ∀ cs ce : ℤ, List.Chain' (fun a b => a.2 < b.1) ((cs, ce) :: l) →
      mergeLoop cs ce l = (cs, ce) :: l := by
  induction l with
  | nil => intro cs ce _; rfl
  | cons x r ih =>
    intro cs ce hc
    have h1 : ce < x.1 := (List.chain'_cons.mp hc).1
    simp only [mergeLoop, if_neg (not_le.mpr h1)]
    have h2 : List.Chain' (fun a b => a.2 < b.1) ((x.1, x.2) :: r) := by
      have := (List.chain'_cons.mp hc).2
      simpa using this
    rw [ih x.1 x.2 h2]

theorem exists_cover_cons (x : ℤ × ℤ) (r : List (ℤ × ℤ)) (t : ℤ) :
    (∃ p ∈ x :: r, p.1 ≤ t ∧ t ≤ p.2) ↔
      (x.1 ≤ t ∧ t ≤ x.2) ∨ ∃ p ∈ r, p.1 ≤ t ∧ t ≤ p.2 := by
  constructor
  · rintro ⟨p, hmem, hc⟩
    rcases List.mem_cons.mp hmem with h | h
    · subst h; exact Or.inl hc
    · exact Or.inr ⟨p, h, hc⟩
  · rintro (hx | ⟨p, hmem, hc⟩)
    · exact ⟨x, List.mem_cons_self _ _, hx⟩
    · exact ⟨p, List.mem_cons_of_mem _ hmem, hc⟩

theorem mergeLoop_covers (l : List (ℤ × ℤ)) :
    ∀ cs ce t : ℤ, List.Sorted startle l → (∀ p ∈ l, cs ≤ p.1) →
      ((∃ q ∈ mergeLoop cs ce l, q.1 ≤ t ∧ t ≤ q.2) ↔
        (cs ≤ t ∧ t ≤ ce) ∨ ∃ p ∈ l, p.1 ≤ t ∧ t ≤ p.2) := by
  induction l with
  | nil => intro cs ce t _ _; simp [mergeLoop]
  | cons x r ih =>
    intro cs ce t hs hp
    simp only [mergeLoop]
    split
    · rename_i hxle
      rw [ih cs (max ce x.2) t hs.of_cons (fun p hpr => hp p (List.mem_cons_of_mem _ hpr))]
      have hx : cs ≤ x.1 := hp x (List.mem_cons_self _ _)
      have hiff : (cs ≤ t ∧ t ≤ max ce x.2) ↔ ((cs ≤ t ∧ t ≤ ce) ∨ (x.1 ≤ t ∧ t ≤ x.2)) := by
        rcases le_total ce x.2 with hm | hm
        · rw [max_eq_right hm]; omega
        · rw [max_eq_left hm]; omega
      rw [hiff, or_assoc, exists_cover_cons x r t]
    · rename_i hxle
      rw [exists_cover_cons (cs, ce) (mergeLoop x.1 x.2 r) t,
        ih x.1 x.2 t hs.of_cons (fun p hpr => List.rel_of_sorted_cons hs p hpr),
        exists_cover_cons x r t]

/-- C2: the union of the integer point-sets of the merged intervals returned
by `solve_sailing_club` equals the union of the integer point-sets of the
input intervals, for every input list. -/
theorem merged_coverage (bs : List (ℤ × ℤ)) (t : ℤ) :
    (∃ p ∈ bs, p.1 ≤ t ∧ t ≤ p.2) ↔
      ∃ q ∈ (solve_sailing_club bs).1, q.1 ≤ t ∧ t ≤ q.2 := by
  by_cases hbs : bs = []
  · subst hbs; simp [solve_sailing_club]
  · rw [solve_sailing_club, if_neg hbs]
    rcases hS : List.insertionSort startle bs with _ | ⟨b, rest⟩
    · have hperm := List.perm_insertionSort startle bs
      rw [hS] at hperm
      exact absurd hperm.symm.eq_nil hbs
    · have hsorted : List.Sorted startle (b :: rest) := by
        rw [← hS]; exact List.sorted_insertionSort startle bs
      have hperm : (b :: rest).Perm bs := by
        rw [← hS]; exact List.perm_insertionSort startle bs
      show (∃ p ∈ bs, p.1 ≤ t ∧ t ≤ p.2) ↔ ∃ q ∈ mergedSlots bs, q.1 ≤ t ∧ t ≤ q.2
      rw [mergedSlots, hS]
      rw [mergeLoop_covers rest b.1 b.2 t hsorted.of_cons
        (fun p hpr => List.rel_of_sorted_cons hsorted p hpr)]
      constructor
      · rintro ⟨p, hpmem, hpc⟩
        have : p ∈ b :: rest := hperm.mem_iff.mpr hpmem
        rcases List.mem_cons.mp this with h | h
        · subst h; exact Or.inl hpc
        · exact Or.inr ⟨p, h, hpc⟩
      · rintro (hb | ⟨p, hpmem, hpc⟩)
        · exact ⟨b, hperm.mem_iff.mp (List.mem_cons_self _ _), hb⟩
        · exact ⟨p, hperm.mem_iff.mp (List.mem_cons_of_mem _ hpmem), hpc⟩

/-- C3 counterexample: on the input `[[5,0],[5,3]]` (a malformed pair with
start > end), the merged list is `[[5,0],[5,3]]`, whose starts are not
strictly increasing, refuting the claim as stated for every input list. -/
theorem merged_strict_cex :
    ¬ List.Chain' (fun a b : ℤ × ℤ => a.1 < b.1 ∧ a.2 < b.1)
      ((solve_sailing_club [(5, 0), (5, 3)]).1) := by
  have h1 : (solve_sailing_club [(5, 0), (5, 3)]).1 = [(5, 0), (5, 3)] := by decide
  rw [h1]
  intro hc
  exact absurd (List.chain'_cons.mp hc).1.1 (lt_irrefl (5 : ℤ))

/-- C3 (amended): for every input list whose pairs all satisfy start ≤ end,
the merged intervals returned by `solve_sailing_club` have strictly
increasing starts and a strict gap between consecutive intervals
(`output[i].end < output[i+1].start`). -/
theorem merged_strict_sorted (bs : List (ℤ × ℤ)) (h : wellFormed bs) :
    List.Chain' (fun a b => a.1 < b.1 ∧ a.2 < b.1) ((solve_sailing_club bs).1) := by
  by_cases hbs : bs = []
  · subst hbs; simp [solve_sailing_club]
  · rw [solve_sailing_club, if_neg hbs]
    rcases hS : List.insertionSort startle bs with _ | ⟨b, rest⟩
    · show List.Chain' _ (mergedSlots bs)
      rw [mergedSlots, hS]; simp
    · have hsorted : List.Sorted startle (b :: rest) := by
        rw [← hS]; exact List.sorted_insertionSort startle bs
      have hperm : (b :: rest).Perm bs := by
        rw [← hS]; exact List.perm_insertionSort startle bs
      show List.Chain' _ (mergedSlots bs)
      rw [mergedSlots, hS]
      exact mergeLoop_chain_strict rest b.1 b.2 hsorted.of_cons
        (fun p hpr => h p (hperm.mem_iff.mp (List.mem_cons_of_mem _ hpr)))
        (h b (hperm.mem_iff.mp (List.mem_cons_self _ _)))

/-- C3 witness: the amended statement at the concrete input `[[1,8],[8,10]]`. -/
theorem merged_strict_sorted_witness :
    wellFormed [(1, 8), (8, 10)] ∧
      List.Chain' (fun a b => a.1 < b.1 ∧ a.2 < b.1)
        ((solve_sailing_club [(1, 8), (8, 10)]).1) :=
  ⟨by decide, merged_strict_sorted [(1, 8), (8, 10)] (by decide)⟩

/-- C4: two bookings touching at a shared endpoint are merged into one
interval, yet require two concurrent boats under the start-before-end
tie-break: `solve_sailing_club [[1,8],[8,10]] = ([[1,10]], 2)`. -/
theorem touching_boundary_case :
    solve_sailing_club [(1, 8), (8, 10)] = ([(1, 10)], 2) := by decide

/-- C6: the merge step is idempotent: applying `solve_sailing_club` to the
merged list it returned yields the same merged list again, for every input. -/
theorem merge_idempotent (bs : List (ℤ × ℤ)) :
    (solve_sailing_club ((solve_sailing_club bs).1)).1 = (solve_sailing_club bs).1 := by
  by_cases hbs : bs = []
  · subst hbs; simp [solve_sailing_club]
  · have h12 : (solve_sailing_club bs).1 = mergedSlots bs := by
      rw [solve_sailing_club, if_neg hbs]
    rw [h12]
    rcases hS : List.insertionSort startle bs with _ | ⟨b, rest⟩
    · have hnil : mergedSlots bs = [] := by rw [mergedSlots, hS]
      rw [hnil]; simp [solve_sailing_club]
    · have hsorted : List.Sorted startle (b :: rest) := by
        rw [← hS]; exact List.sorted_insertionSort startle bs
      have hm : mergedSlots bs = mergeLoop b.1 b.2 rest := by rw [mergedSlots, hS]
      have hmsorted : List.Sorted startle (mergedSlots bs) := by
        rw [hm]
        exact mergeLoop_sorted_start rest b.1 b.2 hsorted.of_cons
          (fun p hpr => List.rel_of_sorted_cons hsorted p hpr)
      have hmgap : List.Chain' (fun a b => a.2 < b.1) (mergedSlots bs) := by
        rw [hm]; exact mergeLoop_chain_gap rest b.1 b.2 hsorted.of_cons
      by_cases hmnil : mergedSlots bs = []
      · rw [hmnil]; simp [solve_sailing_club]
      · have h22 : (solve_sailing_club (mergedSlots bs)).1 = mergedSlots (mergedSlots bs) := by
          rw [solve_sailing_club, if_neg hmnil]
        rw [h22]
        rcases hM : mergedSlots bs with _ | ⟨c, mrest⟩
        · exact absurd hM hmnil
        · rw [hM] at hmsorted hmgap
          have hsortEq : List.insertionSort startle (c :: mrest) = c :: mrest :=
            hmsorted.insertionSort_eq

          have hgap2 : List.Chain' (fun a b => a.2 < b.1) ((c.1, c.2) :: mrest) := by
            simpa using hmgap
          rw [mergedSlots, hsortEq]
          show mergeLoop c.1 c.2 mrest = c :: mrest
          rw [mergeLoop_gap_id mrest c.1 c.2 hgap2]

/-- C7: `solve_sailing_club` is a total function of its input (the sort and
sweep are defined mechanically for every integer-pair list, including
malformed pairs) and the returned `minBoatsNeeded` is always ≥ 0, because
the peak starts at 0 and only takes maxima. -/
theorem min_boats_nonneg (bs : List (ℤ × ℤ)) : 0 ≤ (solve_sailing_club bs).2 := by
  by_cases hbs : bs = []
  · subst hbs; simp [solve_sailing_club]
  · rw [solve_sailing_club, if_neg hbs]
    exact sweepLoop_peak_le (List.insertionSort eventle (events bs)) 0 0

/-- C8: the empty input yields the empty merged list and zero boats:
`solve_sailing_club [] = ([], 0)`. -/
theorem empty_input : solve_sailing_club [] = ([], 0) := rfl

/-- C9: the batch handler returns exactly one solution per test case; the
i-th solution carries the i-th case's id and exactly the pair
`solve_sailing_club` returns for the i-th case's input, in input order. -/
theorem submit_preserves_order (testCases : List TestCase) :
    (submit_sailing_solutions testCases).length = testCases.length ∧
      ∀ i : ℕ, (submit_sailing_solutions testCases)[i]? =
        (testCases[i]?).map fun tc =>
          { id := tc.id
            sortedMergedSlots := (solve_sailing_club tc.input).1
            minBoatsNeeded := (solve_sailing_club tc.input).2 : Solution } := by
  constructor
  · simp [submit_sailing_solutions]
  · intro i
    simp [submit_sailing_solutions]

theorem sumD_nil : sumD [] = 0 := rfl

theorem sumD_cons (e : ℤ × ℤ) (l : List (ℤ × ℤ)) : sumD (e :: l) = e.2 + sumD l := by
  simp [sumD]

theorem sumD_append (p q : List (ℤ × ℤ)) : sumD (p ++ q) = sumD p + sumD q := by
  simp [sumD]

theorem sumD_perm {l₁ l₂ : List (ℤ × ℤ)} (h : List.Perm l₁ l₂) : sumD l₁ = sumD l₂ :=
  (h.map Prod.snd).sum_eq

theorem sumD_nonneg {l : List (ℤ × ℤ)} (h : ∀ x ∈ l, (0 : ℤ) ≤ x.2) : 0 ≤ sumD l := by
  apply List.sum_nonneg
  intro y hy
  rcases List.mem_map.mp hy with ⟨x, hx, rfl⟩
  exact h x hx

theorem sweepLoop_front_le (p : List (ℤ × ℤ)) :
    ∀ (q : List (ℤ × ℤ)) (peak cur : ℤ), p ≠ [] →
      cur + sumD p ≤ sweepLoop peak cur (p ++ q) := by
  induction p with
  | nil => intro q peak cur h; exact absurd rfl h
  | cons e p' ih =>
    intro q peak cur _
    by_cases hp' : p' = []
    · subst hp'
      show cur + sumD [e] ≤ sweepLoop peak cur (e :: q)
      have h1 : sumD [e] = e.2 := by simp [sumD]
      rw [h1, sweepLoop]
      exact le_trans (le_max_right peak (cur + e.2)) (sweepLoop_peak_le q _ _)
    · have h2 := ih q (max peak (cur + e.2)) (cur + e.2) hp'
      show cur + sumD (e :: p') ≤ sweepLoop peak cur ((e :: p') ++ q)
      rw [sumD_cons, List.cons_append, sweepLoop]
      linarith

theorem sweepLoop_achieved (l : List (ℤ × ℤ)) :
    ∀ peak cur : ℤ, sweepLoop peak cur l = peak ∨
      ∃ p q, l = p ++ q ∧ p ≠ [] ∧ sweepLoop peak cur l = cur + sumD p := by
  induction l with
  | nil => intro peak cur; exact Or.inl rfl
  | cons e r ih =>
    intro peak cur
    have hstep : sweepLoop peak cur (e :: r) =
        sweepLoop (max peak (cur + e.2)) (cur + e.2) r := rfl
    rcases ih (max peak (cur + e.2)) (cur + e.2) with h | ⟨p', q', hsplit, hne, hval⟩
    · rcases max_cases peak (cur + e.2) with ⟨hm, _⟩ | ⟨hm, _⟩
      · exact Or.inl (by rw [hstep, h, hm])
      · refine Or.inr ⟨[e], r, rfl, by simp, ?_⟩
        rw [hstep, h, hm, sumD_cons, sumD_nil]
        ring
    · refine Or.inr ⟨e :: p', q', by rw [List.cons_append, hsplit], by simp, ?_⟩
      rw [hstep, hval, sumD_cons]
      ring

theorem events_delta (bs : List (ℤ × ℤ)) : ∀ e ∈ events bs, e.2 = 1 ∨ e.2 = -1 := by
  induction bs with
  | nil => intro e he; simp [events] at he
  | cons p r ih =>
    intro e he
    rw [events] at he
    rcases List.mem_cons.mp he with h | h
    · subst h; exact Or.inl rfl
    · rcases List.mem_cons.mp h with h2 | h2
      · subst h2; exact Or.inr rfl
      · exact ih e h2

theorem events_perm {l₁ l₂ : List (ℤ × ℤ)} (h : List.Perm l₁ l₂) :
    List.Perm (events l₁) (events l₂) := by
  induction h with
  | nil => exact List.Perm.refl _
  | cons x _ ih =>
    rw [events, events]
    exact (ih.cons _).cons _
  | swap x y l =>
    rw [events, events, events, events]
    have h1 : List.Perm
        ([(y.1, 1), (y.2, -1)] ++ ([(x.1, 1), (x.2, -1)] ++ events l))
        ([(x.1, 1), (x.2, -1)] ++ ([(y.1, 1), (y.2, -1)] ++ events l)) := by
      rw [← List.append_assoc, ← List.append_assoc]
      exact List.Perm.append_right (events l) List.perm_append_comm
    simpa using h1
  | trans _ _ ih₁ ih₂ => exact ih₁.trans ih₂

theorem filter_sorted_front (pr : ℤ × ℤ → Bool)
    (hdc : ∀ x y, eventle x y → pr y = true → pr x = true) :
    ∀ l : List (ℤ × ℤ), List.Sorted eventle l → ∃ q, l = l.filter pr ++ q := by
  intro l
  induction l with
  | nil => intro _; exact ⟨[], rfl⟩
  | cons x r ih =>
    intro hs
    by_cases hx : pr x = true
    · rw [List.filter_cons_of_pos hx]
      rcases ih hs.of_cons with ⟨q, hq⟩
      exact ⟨q, by rw [List.cons_append, ← hq]⟩
    · have hnil : List.filter pr (x :: r) = [] := by
        rw [List.filter_cons_of_neg (by simpa using hx)]
        refine List.filter_eq_nil_iff.mpr ?_
        intro y hy
        intro hpy
        exact hx (hdc x y (List.rel_of_sorted_cons hs y hy) (by simpa using hpy))
      exact ⟨x :: r, by rw [hnil, List.nil_append]⟩

theorem coverCount_nil (t : ℤ) : coverCount [] t = 0 := rfl

theorem coverCount_cons (p : ℤ × ℤ) (r : List (ℤ × ℤ)) (t : ℤ) :
    coverCount (p :: r) t = (if p.1 ≤ t ∧ t ≤ p.2 then 1 else 0) + coverCount r t := by
  rw [coverCount, coverCount, List.filter_cons]
  by_cases h : p.1 ≤ t ∧ t ≤ p.2
  · rw [if_pos (by simp only [decide_eq_true_eq]; exact h), if_pos h, List.length_cons]
    push_cast
    ring
  · rw [if_neg (by simp only [decide_eq_true_eq]; exact h), if_neg h]
    ring

theorem count_filter_events (t : ℤ) : ∀ bs : List (ℤ × ℤ), wellFormed bs →
    sumD ((events bs).filter fun x => decide (eventle x (t, 1))) = coverCount bs t := by
  intro bs
  induction bs with
  | nil => intro _; rfl
  | cons p r ih =>
    intro hwf
    have hwfr : wellFormed r := fun q hq => hwf q (List.mem_cons_of_mem _ hq)
    have hp : p.1 ≤ p.2 := hwf p (List.mem_cons_self _ _)
    have hrec := ih hwfr
    rw [events, coverCount_cons, List.filter_cons, List.filter_cons]
    have he1 : (decide (eventle (p.1, 1) (t, 1)) = true) ↔ p.1 ≤ t := by
      simp only [decide_eq_true_eq, eventle]
      omega
    have he2 : (decide (eventle (p.2, -1) (t, 1)) = true) ↔ p.2 < t := by
      simp only [decide_eq_true_eq, eventle]
      omega
    by_cases h1 : p.1 ≤ t <;> by_cases h2 : p.2 < t
    · rw [if_pos (by simpa using he1.mpr h1), if_pos (by simpa using he2.mpr h2),
        sumD_cons, sumD_cons, hrec, if_neg (by omega)]
      show 1 + (-1 + coverCount r t) = 0 + coverCount r t
      ring
    · rw [if_pos (by simpa using he1.mpr h1),
        if_neg (by simpa using fun hc => h2 (he2.mp (by simpa using hc))),
        sumD_cons, hrec, if_pos (by omega)]
    · exact absurd (lt_of_le_of_lt hp h2) (by omega)
    · rw [if_neg (by simpa using fun hc => h1 (he1.mp (by simpa using hc))),
        if_neg (by simpa using fun hc => h2 (he2.mp (by simpa using hc))),
        hrec, if_neg (by omega)]
      show coverCount r t = 0 + coverCount r t
      ring

theorem eventle_dc (t : ℤ) : ∀ x y, eventle x y →
    (fun z => decide (eventle z (t, 1))) y = true →
    (fun z => decide (eventle z (t, 1))) x = true := by
  intro x y hxy hy
  simp only [decide_eq_true_eq] at hy ⊢
  exact IsTrans.trans x y (t, 1) hxy hy

theorem coverCount_le_minBoats (bs : List (ℤ × ℤ)) (h : wellFormed bs) (t : ℤ) :
    coverCount bs t ≤ minBoatsOf bs := by
  have hsorted : List.Sorted eventle (List.insertionSort eventle (events bs)) :=
    List.sorted_insertionSort eventle (events bs)
  have hperm : List.Perm (List.insertionSort eventle (events bs)) (events bs) :=
    List.perm_insertionSort eventle (events bs)
  have hsum : sumD ((List.insertionSort eventle (events bs)).filter
      fun x => decide (eventle x (t, 1))) = coverCount bs t := by
    rw [← count_filter_events t bs h]
    exact sumD_perm (hperm.filter _)
  rcases filter_sorted_front (fun x => decide (eventle x (t, 1))) (eventle_dc t)
    (List.insertionSort eventle (events bs)) hsorted with ⟨q, hq⟩
  rw [minBoatsOf, ← hsum]
  by_cases hfil : (List.insertionSort eventle (events bs)).filter
      (fun x => decide (eventle x (t, 1))) = []
  · rw [hfil, sumD_nil]
    exact sweepLoop_peak_le _ 0 0
  · have := sweepLoop_front_le _ q 0 0 hfil
    rw [← hq] at this
    linarith

theorem low_start_le (bs : List (ℤ × ℤ)) :
    ∀ p ∈ bs, bs.foldr (fun q m => min q.1 m) 0 ≤ p.1 := by
  induction bs with
  | nil => intro p hp; simp at hp
  | cons x r ih =>
    intro p hp
    rcases List.mem_cons.mp hp with h | h
    · subst h; exact min_le_left _ _
    · exact le_trans (min_le_right _ _) (ih p h)

theorem coverCount_low (bs : List (ℤ × ℤ)) :
    coverCount bs (bs.foldr (fun q m => min q.1 m) 0 - 1) = 0 := by
  rw [coverCount]
  have : bs.filter (fun p =>
      decide (p.1 ≤ bs.foldr (fun q m => min q.1 m) 0 - 1 ∧
        bs.foldr (fun q m => min q.1 m) 0 - 1 ≤ p.2)) = [] := by
    refine List.filter_eq_nil_iff.mpr ?_
    intro p hp hc
    simp only [decide_eq_true_eq] at hc
    have := low_start_le bs p hp
    omega
  rw [this]
  rfl

theorem minBoats_attained (bs : List (ℤ × ℤ)) (h : wellFormed bs) :
    ∃ t, coverCount bs t = minBoatsOf bs := by
  have hsorted : List.Sorted eventle (List.insertionSort eventle (events bs)) :=
    List.sorted_insertionSort eventle (events bs)
  have hperm : List.Perm (List.insertionSort eventle (events bs)) (events bs) :=
    List.perm_insertionSort eventle (events bs)
  have hnn : 0 ≤ minBoatsOf bs := sweepLoop_peak_le _ 0 0
  rcases sweepLoop_achieved (List.insertionSort eventle (events bs)) 0 0 with hM |
    ⟨p, q, hsplit, hne, hval⟩
  · refine ⟨bs.foldr (fun q m => min q.1 m) 0 - 1, ?_⟩
    rw [coverCount_low, minBoatsOf, hM]
  · rcases List.eq_nil_or_concat p with hnil | ⟨p', e, hconcat⟩
    · exact absurd hnil hne
    rw [List.concat_eq_append] at hconcat
    have heE : e ∈ List.insertionSort eventle (events bs) := by
      rw [hsplit, hconcat]
      exact List.mem_append_left _ (List.mem_append_right _ (List.mem_singleton.mpr rfl))
    have hdelta : e.2 = 1 ∨ e.2 = -1 := events_delta bs e (hperm.mem_iff.mp heE)
    have hval' : minBoatsOf bs = sumD p := by rw [minBoatsOf, hval]; ring
    rcases hdelta with hd1 | hdm1
    · -- the achieving prefix ends with a start event (t, 1)
      refine ⟨e.1, ?_⟩
      have hmatch : e = (e.1, (1 : ℤ)) := by
        rw [← hd1]
      have hpair : List.Pairwise eventle (p ++ q) := by rw [← hsplit]; exact hsorted
      have hfp : p.filter (fun z => decide (eventle z (e.1, 1))) = p := by
        refine List.filter_eq_self.mpr ?_
        intro x hx
        simp only [decide_eq_true_eq]
        rw [hconcat] at hx
        rcases List.mem_append.mp hx with hx' | hx'
        · have hpairp : List.Pairwise eventle p := (List.pairwise_append.mp hpair).1
          rw [hconcat] at hpairp
          have := (List.pairwise_append.mp hpairp).2.2 x hx' e (List.mem_singleton.mpr rfl)
          rw [← hmatch]
          exact this
        · rw [List.mem_singleton.mp hx', ← hmatch]
          exact Or.inr ⟨rfl, le_refl _⟩
      have hfq : ∀ x ∈ q.filter (fun z => decide (eventle z (e.1, 1))), (0 : ℤ) ≤ x.2 := by
        intro x hx
        rcases List.mem_filter.mp hx with ⟨hxq, hxpr⟩
        simp only [decide_eq_true_eq] at hxpr
        have hex : eventle e x := (List.pairwise_append.mp hpair).2.2 e
          (by rw [hconcat]; exact List.mem_append_right _ (List.mem_singleton.mpr rfl)) x hxq
        have hxe : x = (e.1, 1) := by
          refine IsAntisymm.antisymm x (e.1, 1) hxpr ?_
          rw [← hmatch]
          exact hex
        rw [hxe]
        norm_num
      have hsum : coverCount bs e.1 = sumD p +
          sumD (q.filter (fun z => decide (eventle z (e.1, 1)))) := by
        have h1 : coverCount bs e.1 =
            sumD ((events bs).filter fun z => decide (eventle z (e.1, 1))) :=
          (count_filter_events e.1 bs h).symm
        have h2 : sumD ((events bs).filter fun z => decide (eventle z (e.1, 1))) =
            sumD ((List.insertionSort eventle (events bs)).filter
              fun z => decide (eventle z (e.1, 1))) :=
          (sumD_perm (hperm.filter _)).symm
        rw [h1, h2, hsplit, List.filter_append, sumD_append, hfp]
      have hub := coverCount_le_minBoats bs h e.1
      have hnn2 : 0 ≤ sumD (q.filter (fun z => decide (eventle z (e.1, 1)))) :=
        sumD_nonneg hfq
      rw [hval'] at hub ⊢
      linarith [hsum, hub, hnn2]
    · -- an achieving prefix cannot end with an end event
      exfalso
      by_cases hp' : p' = []
      · rw [hp', List.nil_append] at hconcat
        rw [hconcat, sumD_cons, sumD_nil, hdm1] at hval'
        rw [hval'] at hnn
        norm_num at hnn
      · have hpre := sweepLoop_front_le p' ([e] ++ q) 0 0 hp'
        rw [← List.append_assoc, ← hconcat, ← hsplit] at hpre
        have : sumD p = sumD p' + e.2 := by rw [hconcat, sumD_append, sumD_cons, sumD_nil]; ring
        rw [minBoatsOf] at hval'
        rw [hval'] at hpre
        rw [this, hdm1] at hpre
        linarith

/-- C1: for every input whose pairs all satisfy start ≤ end,
`minBoatsNeeded` is the greatest value of the closed-interval coverage
count: it bounds the number of intervals covering any instant `t` and is
attained at some instant (endpoints count as occupied, start before end). -/
theorem minBoats_isGreatest (bs : List (ℤ × ℤ)) (h : wellFormed bs) :
    IsGreatest (Set.range (coverCount bs)) ((solve_sailing_club bs).2) := by
  by_cases hbs : bs = []
  · subst hbs
    constructor
    · exact ⟨0, rfl⟩
    · rintro y ⟨t, rfl⟩
      exact le_refl _
  · rw [solve_sailing_club, if_neg hbs]
    constructor
    · rcases minBoats_attained bs h with ⟨t, ht⟩
      exact ⟨t, ht⟩
    · rintro y ⟨t, rfl⟩
      exact coverCount_le_minBoats bs h t

/-- C1 witness: the statement instantiated at the concrete well-formed
input `[[1,8],[8,10]]`. -/
theorem minBoats_isGreatest_witness :
    wellFormed [(1, 8), (8, 10)] ∧
      IsGreatest (Set.range (coverCount [(1, 8), (8, 10)]))
        ((solve_sailing_club [(1, 8), (8, 10)]).2) :=
  ⟨by decide, minBoats_isGreatest [(1, 8), (8, 10)] (by decide)⟩

theorem maxEnd_perm {l₁ l₂ : List (ℤ × ℤ)} (h : List.Perm l₁ l₂) :
    ∀ a : ℤ, maxEnd a l₁ = maxEnd a l₂ := by
  induction h with
  | nil => intro a; rfl
  | cons x _ ih =>
    intro a
    show maxEnd (max a x.2) _ = maxEnd (max a x.2) _
    exact ih (max a x.2)
  | swap x y l =>
    intro a
    show maxEnd (max (max a y.2) x.2) l = maxEnd (max (max a x.2) y.2) l
    rw [max_assoc, max_comm y.2 x.2, ← max_assoc]
  | trans _ _ ih₁ ih₂ => intro a; exact (ih₁ a).trans (ih₂ a)

theorem mergeLoop_run (blk : List (ℤ × ℤ)) :
    ∀ (s cs ce : ℤ) (rest : List (ℤ × ℤ)),
      (∀ x ∈ blk, x.1 = s ∧ s ≤ x.2) → s ≤ ce →
      mergeLoop cs ce (blk ++ rest) = mergeLoop cs (maxEnd ce blk) rest := by
  induction blk with
  | nil => intro s cs ce rest _ _; rfl
  | cons x t ih =>
    intro s cs ce rest hblk hce
    have hx := hblk x (List.mem_cons_self _ _)
    show (if x.1 ≤ ce then mergeLoop cs (max ce x.2) (t ++ rest)
      else (cs, ce) :: mergeLoop x.1 x.2 (t ++ rest)) = mergeLoop cs (maxEnd ce (x :: t)) rest
    rw [if_pos (by rw [hx.1]; exact hce)]
    have hme : maxEnd ce (x :: t) = maxEnd (max ce x.2) t := rfl
    rw [hme]
    exact ih s cs (max ce x.2) rest (fun y hy => hblk y (List.mem_cons_of_mem _ hy))
      (le_trans hce (le_max_left _ _))

theorem mergeLoop_block_perm (b₁ b₂ : List (ℤ × ℤ)) (s : ℤ) (hp : List.Perm b₁ b₂)
    (hblk : ∀ x ∈ b₁, x.1 = s ∧ s ≤ x.2) :
    ∀ (cs ce : ℤ) (rest : List (ℤ × ℤ)),
      mergeLoop cs ce (b₁ ++ rest) = mergeLoop cs ce (b₂ ++ rest) := by
  intro cs ce rest
  have hblk₂ : ∀ x ∈ b₂, x.1 = s ∧ s ≤ x.2 := fun x hx => hblk x (hp.mem_iff.mpr hx)
  by_cases hce : s ≤ ce
  · rw [mergeLoop_run b₁ s cs ce rest hblk hce, mergeLoop_run b₂ s cs ce rest hblk₂ hce,
      maxEnd_perm hp ce]
  · rcases b₁ with _ | ⟨x, t⟩
    · rw [hp.symm.eq_nil]
    · rcases b₂ with _ | ⟨y, u⟩
      · exact absurd hp.eq_nil (by simp)
      · have hx := hblk x (List.mem_cons_self _ _)
        have hy := hblk₂ y (List.mem_cons_self _ _)
        show (if x.1 ≤ ce then mergeLoop cs (max ce x.2) (t ++ rest)
            else (cs, ce) :: mergeLoop x.1 x.2 (t ++ rest)) =
          (if y.1 ≤ ce then mergeLoop cs (max ce y.2) (u ++ rest)
            else (cs, ce) :: mergeLoop y.1 y.2 (u ++ rest))
        rw [if_neg (by rw [hx.1]; exact hce), if_neg (by rw [hy.1]; exact hce)]
        refine congrArg (List.cons (cs, ce)) ?_
        rw [hx.1, hy.1]
        rw [mergeLoop_run t s s x.2 rest
          (fun z hz => hblk z (List.mem_cons_of_mem _ hz)) hx.2]
        rw [mergeLoop_run u s s y.2 rest
          (fun z hz => hblk₂ z (List.mem_cons_of_mem _ hz)) hy.2]
        refine congrArg (fun m => mergeLoop s m rest) ?_
        have e1 : maxEnd x.2 t = maxEnd s (x :: t) := by
          show maxEnd x.2 t = maxEnd (max s x.2) t
          rw [max_eq_right hx.2]
        have e2 : maxEnd y.2 u = maxEnd s (y :: u) := by
          show maxEnd y.2 u = maxEnd (max s y.2) u
          rw [max_eq_right hy.2]
        rw [e1, e2]
        exact maxEnd_perm hp s

theorem mergeLoop_perm_sorted (l₁ : List (ℤ × ℤ)) :
    ∀ l₂ : List (ℤ × ℤ), List.Perm l₁ l₂ →
      List.Sorted startle l₁ → List.Sorted startle l₂ → (∀ p ∈ l₁, p.1 ≤ p.2) →
      ∀ cs ce : ℤ, mergeLoop cs ce l₁ = mergeLoop cs ce l₂ := by
  induction l₁ with
  | nil =>
    intro l₂ hp _ _ _ cs ce
    rw [hp.symm.eq_nil]
  | cons a t₁ ih =>
    intro l₂ hp hs₁ hs₂ hwf cs ce
    have ha : a ∈ l₂ := hp.mem_iff.mp (List.mem_cons_self _ _)
    rcases List.append_of_mem ha with ⟨p, q, hl₂⟩
    have hmin : ∀ x ∈ l₂, a.1 ≤ x.1 := by
      intro x hx
      rcases List.mem_cons.mp (hp.mem_iff.mpr hx) with h | h
      · rw [h]
      · exact List.rel_of_sorted_cons hs₁ x h
    have hpstart : ∀ x ∈ p, x.1 = a.1 := by
      intro x hx
      have hs₂' : List.Pairwise startle (p ++ a :: q) := by rw [← hl₂]; exact hs₂
      have h1 : x.1 ≤ a.1 :=
        (List.pairwise_append.mp hs₂').2.2 x hx a (List.mem_cons_self _ _)
      have h2 : a.1 ≤ x.1 := hmin x (by rw [hl₂]; exact List.mem_append_left _ hx)
      exact le_antisymm h1 h2
    have hwf₂ : ∀ x ∈ l₂, x.1 ≤ x.2 := fun x hx => hwf x (hp.mem_iff.mpr hx)
    have hblock : ∀ x ∈ p ++ [a], x.1 = a.1 ∧ a.1 ≤ x.2 := by
      intro x hx
      rcases List.mem_append.mp hx with h | h
      · have h1 : x.1 = a.1 := hpstart x h
        have h2 : x.1 ≤ x.2 := hwf₂ x (by rw [hl₂]; exact List.mem_append_left _ h)
        exact ⟨h1, h1 ▸ h2⟩
      · rw [List.mem_singleton.mp h]
        exact ⟨rfl, hwf a (List.mem_cons_self _ _)⟩
    have h3 : mergeLoop cs ce l₂ = mergeLoop cs ce (a :: (p ++ q)) := by
      have e1 : l₂ = (p ++ [a]) ++ q := by rw [hl₂]; simp
      have e2 : a :: (p ++ q) = ([a] ++ p) ++ q := by simp
      rw [e1, e2]
      exact mergeLoop_block_perm (p ++ [a]) ([a] ++ p) a.1 List.perm_append_comm hblock cs ce q
    rw [h3]
    have hperm_t : List.Perm t₁ (p ++ q) := by
      have hmid : List.Perm l₂ (a :: (p ++ q)) := by rw [hl₂]; exact List.perm_middle
      exact (hp.trans hmid).cons_inv
    have hs_pq : List.Sorted startle (p ++ q) := by
      have hs₂' : List.Pairwise startle (p ++ a :: q) := by rw [← hl₂]; exact hs₂
      exact hs₂'.sublist ((List.sublist_cons_self a q).append_left p)
    have hwf_t : ∀ x ∈ t₁, x.1 ≤ x.2 := fun x hx => hwf x (List.mem_cons_of_mem _ hx)
    show (if a.1 ≤ ce then mergeLoop cs (max ce a.2) t₁
        else (cs, ce) :: mergeLoop a.1 a.2 t₁) =
      (if a.1 ≤ ce then mergeLoop cs (max ce a.2) (p ++ q)
        else (cs, ce) :: mergeLoop a.1 a.2 (p ++ q))
    by_cases hc : a.1 ≤ ce
    · rw [if_pos hc, if_pos hc]
      exact ih (p ++ q) hperm_t hs₁.of_cons hs_pq hwf_t cs (max ce a.2)
    · rw [if_neg hc, if_neg hc]
      exact congrArg (List.cons (cs, ce)) (ih (p ++ q) hperm_t hs₁.of_cons hs_pq hwf_t a.1 a.2)

theorem mergeLoop_seed (b : ℤ × ℤ) (r : List (ℤ × ℤ)) (hwfb : b.1 ≤ b.2) :
    mergeLoop b.1 b.1 (b :: r) = mergeLoop b.1 b.2 r := by
  show (if b.1 ≤ b.1 then mergeLoop b.1 (max b.1 b.2) r
    else (b.1, b.1) :: mergeLoop b.1 b.2 r) = mergeLoop b.1 b.2 r
  rw [if_pos (le_refl b.1), max_eq_right hwfb]

/-- C5 counterexample: `[[5,3],[5,10]]` and its permutation `[[5,10],[5,3]]`
(the pair `[5,3]` is malformed, start > end) give different outputs: the
merged lists are `[[5,3],[5,10]]` and `[[5,10]]` respectively, refuting the
claim for arbitrary integer pairs. -/
theorem solve_perm_cex :
    List.Perm [((5 : ℤ), (3 : ℤ)), (5, 10)] [(5, 10), (5, 3)] ∧
      solve_sailing_club [(5, 3), (5, 10)] ≠ solve_sailing_club [(5, 10), (5, 3)] :=
  ⟨List.Perm.swap (5, 10) (5, 3) [], by decide⟩

/-- C5 (amended): for every input list whose pairs all satisfy start ≤ end,
`solve_sailing_club` returns the same pair (merged intervals and
`minBoatsNeeded`) on every permutation of the input. -/
theorem solve_perm_invariant (l₁ l₂ : List (ℤ × ℤ)) (hwf : wellFormed l₁)
    (hp : List.Perm l₁ l₂) :
    solve_sailing_club l₁ = solve_sailing_club l₂ := by
  by_cases h1 : l₁ = []
  · subst h1
    rw [hp.symm.eq_nil]
  · have h2 : l₂ ≠ [] := by
      intro hn
      rw [hn] at hp
      exact h1 hp.eq_nil
    rw [solve_sailing_club, solve_sailing_club, if_neg h1, if_neg h2]
    have hminEq : minBoatsOf l₁ = minBoatsOf l₂ := by
      rw [minBoatsOf, minBoatsOf]
      have hEperm : List.Perm (List.insertionSort eventle (events l₁))
          (List.insertionSort eventle (events l₂)) :=
        (List.perm_insertionSort eventle (events l₁)).trans
          ((events_perm hp).trans (List.perm_insertionSort eventle (events l₂)).symm)
      rw [List.eq_of_perm_of_sorted hEperm
        (List.sorted_insertionSort eventle (events l₁))
        (List.sorted_insertionSort eventle (events l₂))]
    have hmergeEq : mergedSlots l₁ = mergedSlots l₂ := by
      have hSperm : List.Perm (List.insertionSort startle l₁)
          (List.insertionSort startle l₂) :=
        (List.perm_insertionSort startle l₁).trans
          (hp.trans (List.perm_insertionSort startle l₂).symm)
      have hS₁sorted := List.sorted_insertionSort startle l₁
      have hS₂sorted := List.sorted_insertionSort startle l₂
      rcases hA : List.insertionSort startle l₁ with _ | ⟨b₁, r₁⟩
      · exfalso
        have hpermA := List.perm_insertionSort startle l₁
        rw [hA] at hpermA
        exact h1 hpermA.symm.eq_nil
      rcases hB : List.insertionSort startle l₂ with _ | ⟨b₂, r₂⟩
      · exfalso
        have hpermB := List.perm_insertionSort startle l₂
        rw [hB] at hpermB
        exact h2 hpermB.symm.eq_nil
      rw [mergedSlots, mergedSlots, hA, hB]
      rw [hA, hB] at hSperm
      rw [hA] at hS₁sorted
      rw [hB] at hS₂sorted
      have hwfS : ∀ x ∈ b₁ :: r₁, x.1 ≤ x.2 := by
        intro x hx
        refine hwf x ((List.perm_insertionSort startle l₁).mem_iff.mp ?_)
        rw [hA]
        exact hx
      have hb₂mem : b₂ ∈ b₁ :: r₁ := hSperm.mem_iff.mpr (List.mem_cons_self _ _)
      have hb₁mem : b₁ ∈ b₂ :: r₂ := hSperm.mem_iff.mp (List.mem_cons_self _ _)
      have hle1 : b₁.1 ≤ b₂.1 := by
        rcases List.mem_cons.mp hb₂mem with h | h
        · rw [h]
        · exact List.rel_of_sorted_cons hS₁sorted b₂ h
      have hle2 : b₂.1 ≤ b₁.1 := by
        rcases List.mem_cons.mp hb₁mem with h | h
        · rw [h]
        · exact List.rel_of_sorted_cons hS₂sorted b₁ h
      have hstart : b₁.1 = b₂.1 := le_antisymm hle1 hle2
      have hwb₁ : b₁.1 ≤ b₁.2 := hwfS b₁ (List.mem_cons_self _ _)
      have hwb₂ : b₂.1 ≤ b₂.2 := hwfS b₂ hb₂mem
      calc mergeLoop b₁.1 b₁.2 r₁
          = mergeLoop b₁.1 b₁.1 (b₁ :: r₁) := (mergeLoop_seed b₁ r₁ hwb₁).symm
        _ = mergeLoop b₁.1 b₁.1 (b₂ :: r₂) :=
            mergeLoop_perm_sorted (b₁ :: r₁) (b₂ :: r₂) hSperm hS₁sorted hS₂sorted hwfS b₁.1 b₁.1
        _ = mergeLoop b₂.1 b₂.1 (b₂ :: r₂) := by rw [hstart]
        _ = mergeLoop b₂.1 b₂.2 r₂ := mergeLoop_seed b₂ r₂ hwb₂
    rw [hminEq, hmergeEq]

/-- C5 witness: the amended statement at the well-formed input
`[[1,8],[8,10]]` and its reversal. -/
theorem solve_perm_invariant_witness :
    wellFormed [(1, 8), (8, 10)] ∧
      List.Perm [((1 : ℤ), (8 : ℤ)), (8, 10)] [(8, 10), (1, 8)] ∧
      solve_sailing_club [(1, 8), (8, 10)] = solve_sailing_club [(8, 10), (1, 8)] :=
  ⟨by decide, List.Perm.swap (8, 10) (1, 8) [],
    solve_perm_invariant [(1, 8), (8, 10)] [(8, 10), (1, 8)] (by decide)
      (List.Perm.swap (8, 10) (1, 8) [])⟩

/-- C10: a single zero-length booking is kept and needs one boat:
`solve_sailing_club [[a,a]] = ([[a,a]], 1)` for every integer `a`, because
the start event at `a` is processed before the end event at `a`. -/
theorem singleton_zero_length (a : ℤ) :
    solve_sailing_club [(a, a)] = ([(a, a)], 1) := by
  rw [solve_sailing_club, if_neg (by simp)]
  rw [Prod.mk.injEq]
  refine ⟨?_, ?_⟩
  · show mergedSlots [(a, a)] = [(a, a)]
    rfl
  · show minBoatsOf [(a, a)] = 1
    rw [minBoatsOf, events, events]
    have h1 : List.insertionSort eventle [(a, 1), (a, -1)] = [(a, 1), (a, -1)] := by
      apply List.Sorted.insertionSort_eq
      refine List.sorted_cons.mpr ⟨?_, List.sorted_singleton _⟩
      intro b hb
      simp only [List.mem_singleton] at hb
      subst hb
      exact Or.inr ⟨rfl, by norm_num⟩
    rw [h1, sweepLoop, sweepLoop, sweepLoop]
    norm_num
